import Mathlib

/-!
# Shallow embedding of `src/cascadia/TerminalSettingsModel/IInheritable.h`

The source is a C++ header implementing a multi-parent settings-inheritance
mechanism:

* `IInheritable<T>` keeps an ordered `std::vector<com_ptr<T>> _parents`,
  offers `CreateChild`, two `InsertParent` overloads and a virtual
  `_FinalizeInheritance` hook (a no-op by default).
* The `GETSET_SETTING(type, name, ...)` macro generates, per property, an
  `std::optional<type> _name` slot with `Has`/getter/setter/`Clear` and a
  recursive `_get_name_Impl` that returns the node's own value when set and
  otherwise scans `_parents` in order, returning the first parent whose own
  recursive resolution produced a value.
* The `GETSET_NULLABLE_SETTING(type, name, ...)` macro is the variant for
  properties where null is itself a legal explicit value: the slot is a
  `NullableSetting {IReference<type> setting; bool set;}` and the `set` flag
  (not the stored value) decides between "explicitly set" and "inherit".

We embed the object graph as a heap: a node is identified by its index in a
`List` of records; `com_ptr` parent references become indices.  A node record
carries one representative property of each macro variant (one plain slot,
one nullable slot) together with the shared `_parents` list, mirroring a
concrete `T` that declares one `GETSET_SETTING` and one
`GETSET_NULLABLE_SETTING` property.  The recursion of `_get_name_Impl` is
embedded with explicit fuel (outer `none` = the fuel ran out, i.e. the
C++ recursion has not returned within that depth); this keeps every
definition executable and lets termination on acyclic graphs be a theorem
rather than an assumption.
-/

/-- `NullableSetting<T>` from the source: `IReference<T> setting{nullptr}`
(embedded as `Option W`, `none` = nullptr) together with `bool set{false}`. -/
structure NullableSetting (W : Type) where
  setting : Option W
  set : Bool
deriving DecidableEq, Repr

/-- One heap record for a concrete `T : IInheritable<T>` declaring one
`GETSET_SETTING` property (field `slot`, the `std::optional<type> _name`
member, default-initialized to `std::nullopt`) and one
`GETSET_NULLABLE_SETTING` property (field `nslot`, the
`NullableSetting<type> _name{}` member), plus the shared
`std::vector<com_ptr<T>> _parents` (field `parents`, parent ids). -/
structure NodeRec (V W : Type) where
  slot : Option V
  nslot : NullableSetting W
  parents : List Nat
deriving DecidableEq, Repr

/-- The heap: node ids are positions in the list. -/
abbrev Heap (V W : Type) := List (NodeRec V W)

/-- Apply `f` to the record of node `i` (mutation of one object of the heap);
ids outside the heap leave it unchanged (no such object exists to call a
method on). -/
def updateAt (s : Heap V W) (i : Nat) (f : NodeRec V W → NodeRec V W) :
    Heap V W :=
  match s[i]? with
  | none => s
  | some r => s.set i (f r)

/-- `void InsertParent(com_ptr<T> parent) { _parents.push_back(parent); }` -/
def insertParentEnd (parent : Nat) (parents : List Nat) : List Nat :=
  parents ++ [parent]

/-- `void InsertParent(size_t index, com_ptr<T> parent)` from the source:
`auto pos{ _parents.begin() + index }; _parents.insert(pos, parent);`.
The body performs no bounds check and has no error path.  For
`index ≤ _parents.size()` the `std::vector::insert` call is defined and
places `parent` at position `index`, shifting later elements; for
`index > _parents.size()` the iterator `begin() + index` is undefined
behavior in C++.  The guard below delimits that definedness domain of the
source (it does not transcribe a check present in the source — there is
none): `none` stands for undefined behavior, not for a signalled error. -/
def insertParentAt (index : Nat) (parent : Nat) (parents : List Nat) :
    Option (List Nat) :=
  if index ≤ parents.length then
    some (parents.take index ++ parent :: parents.drop index)
  else
    none

/-- The `for (auto parent : _parents)` loop of `_get_name_Impl`
(`GETSET_SETTING`): `if (auto val{ parent->_get_name_Impl() }) return val;`,
and `return std::nullopt;` after the loop.  `eval` is the recursive
resolution applied to each parent id; an `eval` that runs out of fuel
(`none`) makes the whole loop indeterminate, since the C++ execution would
be stuck inside that parent's recursion. -/
def getLoop (eval : Nat → Option (Option V)) : List Nat → Option (Option V)
  | [] => some none
  | p :: ps =>
    match eval p with
    | none => none
    | some (some v) => some (some v)
    | some none => getLoop eval ps

/-- `std::optional<type> _get_name_Impl() const` of `GETSET_SETTING`:
return `_name` if it holds a value, otherwise scan `_parents` in order
(`getLoop`), otherwise `std::nullopt`.  First `Nat` argument is
fuel bounding the recursion depth: result `none` means the fuel ran out
(the C++ recursion has not returned within that depth), `some o` means the
call returns with `o : Option V`.  A dangling id (not in the heap) cannot
arise from the API; it is mapped to `some none`. -/
def getImplFuel (s : Heap V W) : Nat → Nat → Option (Option V)
  | 0, _ => none
  | fuel + 1, i =>
    match s[i]? with
    | none => some none
    | some r =>
      match r.slot with
      | some v => some (some v)
      | none => getLoop (fun p => getImplFuel s fuel p) r.parents

/-- `bool Has_name() const { return _name.has_value(); }` (`GETSET_SETTING`). -/
def hasAt (s : Heap V W) (i : Nat) : Bool :=
  match s[i]? with
  | none => false
  | some r => r.slot.isSome

/-- `type name() const { const auto val{ _get_name_Impl() }; return val ? *val
: type{ __VA_ARGS__ }; }` (`GETSET_SETTING`); `d` is the default literal
`type{ __VA_ARGS__ }`.  Outer `none` = the fuel ran out. -/
def getAt (fuel : Nat) (d : V) (s : Heap V W) (i : Nat) : Option V :=
  (getImplFuel s fuel i).map (fun o => o.getD d)

/-- `void name(const type& value) { _name = value; }` (`GETSET_SETTING`). -/
def setAt (s : Heap V W) (i : Nat) (v : V) : Heap V W :=
  updateAt s i (fun r => { r with slot := some v })

/-- `void Clear_name() { _name = std::nullopt; }` (`GETSET_SETTING`). -/
def clearAt (s : Heap V W) (i : Nat) : Heap V W :=
  updateAt s i (fun r => { r with slot := none })

/-- The `for (auto parent : _parents)` loop of `_get_name_Impl`
(`GETSET_NULLABLE_SETTING`): `auto val{ parent->_get_name_Impl() };
if (val.set) return val;`, and `return { nullptr, false };` after. -/
def ngetLoop (eval : Nat → Option (NullableSetting W)) :
    List Nat → Option (NullableSetting W)
  | [] => some ⟨none, false⟩
  | p :: ps =>
    match eval p with
    | none => none
    | some val => if val.set then some val else ngetLoop eval ps

/-- `NullableSetting<type> _get_name_Impl() const` of
`GETSET_NULLABLE_SETTING`: return `_name` if `Has_name()`, otherwise scan
`_parents` in order (`ngetLoop`), otherwise `{ nullptr, false }`.
Fuel as in `getImplFuel`. -/
def ngetImplFuel (s : Heap V W) : Nat → Nat → Option (NullableSetting W)
  | 0, _ => none
  | fuel + 1, i =>
    match s[i]? with
    | none => some ⟨none, false⟩
    | some r =>
      if r.nslot.set then some r.nslot
      else ngetLoop (fun p => ngetImplFuel s fuel p) r.parents

/-- `bool Has_name() const { return _name.set; }` (`GETSET_NULLABLE_SETTING`). -/
def nhasAt (s : Heap V W) (i : Nat) : Bool :=
  match s[i]? with
  | none => false
  | some r => r.nslot.set

/-- `IReference<type> name() const { const auto val{ _get_name_Impl() };
return val.set ? val.setting : IReference<type>{ __VA_ARGS__ }; }`
(`GETSET_NULLABLE_SETTING`); `d` is the default reference (possibly null). -/
def ngetAt (fuel : Nat) (d : Option W) (s : Heap V W) (i : Nat) :
    Option (Option W) :=
  (ngetImplFuel s fuel i).map (fun val => if val.set then val.setting else d)

/-- `void name(const IReference<type>& value)` (`GETSET_NULLABLE_SETTING`):
`if (!Has_name() || _name.setting != value) { _name.setting = value;
_name.set = true; }`. -/
def nsetAt [DecidableEq W] (s : Heap V W) (i : Nat) (w : Option W) : Heap V W :=
  updateAt s i (fun r =>
    if r.nslot.set = false ∨ ¬ r.nslot.setting = w then
      { r with nslot := ⟨w, true⟩ }
    else r)

/-- `void Clear_name() { _name.set = false; }` (`GETSET_NULLABLE_SETTING`):
only the flag is flipped, `_name.setting` is left in place. -/
def nclearAt (s : Heap V W) (i : Nat) : Heap V W :=
  updateAt s i (fun r => { r with nslot := ⟨r.nslot.setting, false⟩ })

/-- A freshly constructed `T` (`winrt::make_self<T>()`): member initializers
give `_name{ std::nullopt }` for the plain slot, `NullableSetting{}` =
`{ nullptr, false }` for the nullable slot, and `_parents{}` empty. -/
def freshNode : NodeRec V W :=
  ⟨none, ⟨none, false⟩, []⟩

/-- `com_ptr<T> CreateChild() const`, parameterized by the virtual
`_FinalizeInheritance` hook a subtype may override (the hook receives the
heap and the child's id): `make_self<T>()` allocates a fresh node (a new id
at the end of the heap), `child->InsertParent(parent)` appends the creator
to the child's parent list, and then — exactly one call, after the parent
link is established — `child->_FinalizeInheritance()` runs.  Returns the
updated heap and the child's id. -/
def createChildHook (hook : Heap V W → Nat → Heap V W) (s : Heap V W)
    (i : Nat) : Heap V W × Nat :=
  let c := s.length
  let s1 := s ++ [freshNode]
  let s2 := updateAt s1 c (fun r => { r with parents := insertParentEnd i r.parents })
  (hook s2 c, c)

/-- `CreateChild` with the default `_FinalizeInheritance` body
(`virtual void _FinalizeInheritance() {}`, a no-op). -/
def createChild (s : Heap V W) (i : Nat) : Heap V W × Nat :=
  createChildHook (fun s _ => s) s i

/-- The parent edge of the heap: `j` is a parent of `i`. -/
def parentEdge (s : Heap V W) (j i : Nat) : Prop :=
  ∃ r, s[i]? = some r ∧ j ∈ r.parents

/-- Spec-side comparator used to state that the value a nullable `Clear`
leaves behind in the slot is unobservable: node `i` with its nullable slot
holding an arbitrary residual value `w` and the explicit-set flag down. -/
def nresidualAt (s : Heap V W) (i : Nat) (w : Option W) : Heap V W :=
  updateAt s i (fun r => { r with nslot := ⟨w, false⟩ })

-- Sanity examples (concrete evaluation of the embedding).
example : getAt 3 (0 : Nat) [⟨some 10, ⟨none, false⟩, []⟩,
    ⟨some 20, ⟨none, false⟩, []⟩,
    (⟨none, ⟨none, false⟩, [0, 1]⟩ : NodeRec Nat Nat)] 2 = some 10 := by decide

example : getAt 3 (7 : Nat)
    [(⟨none, ⟨none, false⟩, []⟩ : NodeRec Nat Nat)] 0 = some 7 := by decide

example : insertParentAt 5 0 [1, 2] = none := by decide

example : ngetAt 2 (some 9)
    [(⟨none, ⟨none, true⟩, []⟩ : NodeRec Nat Nat)] 0 = some none := by decide

/-! ## List and heap helper lemmas -/

theorem get_set_self (s : List α) (i : Nat) (a : α) (h : i < s.length) :
    (s.set i a)[i]? = some a :=
  List.getElem?_set_self h

theorem get_set_other (s : List α) (i j : Nat) (a : α) (h : j ≠ i) :
    (s.set i a)[j]? = s[j]? :=
  List.getElem?_set_ne (fun e => h e.symm)

theorem get_set_same : ∀ (s : List α) (i : Nat) (r : α), s[i]? = some r →
    s.set i r = s
  | [], _, _, h => by simp at h
  | x :: xs, 0, r, h => by
    simp at h
    simp [List.set, h]
  | x :: xs, i + 1, r, h =>
    congrArg (x :: ·) (get_set_same xs i r (by simpa using h))

theorem get_some_lt (s : List α) (i : Nat) (r : α) (h : s[i]? = some r) :
    i < s.length := by
  obtain ⟨h1, -⟩ := List.getElem?_eq_some_iff.mp h
  exact h1

theorem get_none_ge (s : List α) (i : Nat) (h : s[i]? = none) :
    s.length ≤ i :=
  List.getElem?_eq_none_iff.mp h

theorem get_append_left (s t : List α) (j : Nat) (h : j < s.length) :
    (s ++ t)[j]? = s[j]? :=
  List.getElem?_append_left h

theorem get_concat_len (s : List α) (a : α) :
    (s ++ [a])[s.length]? = some a :=
  List.getElem?_concat_length s a

theorem set_concat_len : ∀ (s : List α) (a b : α),
    (s ++ [a]).set s.length b = s ++ [b]
  | [], _, _ => rfl
  | x :: xs, a, b => congrArg (x :: ·) (set_concat_len xs a b)

theorem set_set_self (s : List α) (i : Nat) (a b : α) :
    (s.set i a).set i b = s.set i b :=
  List.set_set a b s i

theorem updateAt_self (s : Heap V W) (i : Nat) (f : NodeRec V W → NodeRec V W)
    (r : NodeRec V W) (h : s[i]? = some r) :
    (updateAt s i f)[i]? = some (f r) := by
  unfold updateAt
  rw [h]
  exact get_set_self s i (f r) (get_some_lt s i r h)

theorem updateAt_other (s : Heap V W) (i : Nat) (f : NodeRec V W → NodeRec V W)
    (j : Nat) (h : j ≠ i) : (updateAt s i f)[j]? = s[j]? := by
  unfold updateAt
  cases hs : s[i]? with
  | none => rfl
  | some r => exact get_set_other s i j (f r) h

theorem updateAt_len (s : Heap V W) (i : Nat) (f : NodeRec V W → NodeRec V W) :
    (updateAt s i f).length = s.length := by
  unfold updateAt
  cases hs : s[i]? with
  | none => rfl
  | some r => exact List.length_set s i (f r)

theorem updateAt_oob (s : Heap V W) (i : Nat) (f : NodeRec V W → NodeRec V W)
    (h : s[i]? = none) : updateAt s i f = s := by
  unfold updateAt
  rw [h]

theorem getLoop_congr {ev₁ ev₂ : Nat → Option (Option V)}
    (h : ∀ p, ev₁ p = ev₂ p) : ∀ ps, getLoop ev₁ ps = getLoop ev₂ ps
  | [] => rfl
  | p :: ps => by
    unfold getLoop
    rw [h p, getLoop_congr h ps]

theorem ngetLoop_congr {ev₁ ev₂ : Nat → Option (NullableSetting W)}
    (h : ∀ p, ev₁ p = ev₂ p) : ∀ ps, ngetLoop ev₁ ps = ngetLoop ev₂ ps
  | [] => rfl
  | p :: ps => by
    unfold ngetLoop
    rw [h p, ngetLoop_congr h ps]

theorem getLoop_mono {ev₁ ev₂ : Nat → Option (Option V)}
    (h : ∀ p o, ev₁ p = some o → ev₂ p = some o) :
    ∀ ps o, getLoop ev₁ ps = some o → getLoop ev₂ ps = some o
  | [], o, ho => ho
  | p :: ps, o, ho => by
    unfold getLoop at ho ⊢
    cases hp : ev₁ p with
    | none => rw [hp] at ho; exact absurd ho (by simp)
    | some val =>
      rw [h p val hp]
      rw [hp] at ho
      cases val with
      | none => exact getLoop_mono h ps o ho
      | some v => exact ho

theorem getImplFuel_mono (s : Heap V W) :
    ∀ fuel f i o, getImplFuel s fuel i = some o → fuel ≤ f →
      getImplFuel s f i = some o
  | 0, _, _, _, ho, _ => absurd ho (by simp [getImplFuel])
  | fuel + 1, f, i, o, ho, hle => by
    obtain ⟨f', rfl⟩ : ∃ f', f = f' + 1 :=
      ⟨f - 1, by omega⟩
    have hle' : fuel ≤ f' := by omega
    cases hx : s[i]? with
    | none =>
      simp only [getImplFuel, hx] at ho ⊢
      exact ho
    | some r =>
      cases hr : r.slot with
      | some v =>
        simp only [getImplFuel, hx, hr] at ho ⊢
        exact ho
      | none =>
        simp only [getImplFuel, hx, hr] at ho ⊢
        exact getLoop_mono (fun p op hp => getImplFuel_mono s fuel f' p op hp hle')
          r.parents o ho

/-- The body of the `GETSET_NULLABLE_SETTING` setter always leaves the slot
holding `{ value, true }`: when the guard `!Has() || setting != value` fails,
the slot already holds exactly that. -/
theorem nset_body [DecidableEq W] (r : NodeRec V W) (w : Option W) :
    (if r.nslot.set = false ∨ ¬ r.nslot.setting = w then
       { r with nslot := ⟨w, true⟩ } else r)
      = { r with nslot := ⟨w, true⟩ } := by
  split
  · rfl
  · next h =>
    push_neg at h
    obtain ⟨h1, h2⟩ := h
    obtain ⟨sl, ns, ps⟩ := r
    obtain ⟨st, fl⟩ := ns
    simp only at h1 h2
    subst h2
    cases fl with
    | false => exact absurd rfl h1
    | true => rfl

theorem nsetAt_eq [DecidableEq W] (s : Heap V W) (i : Nat) (w : Option W) :
    nsetAt s i w = updateAt s i (fun r => { r with nslot := ⟨w, true⟩ }) := by
  unfold nsetAt
  congr 1
  funext r
  exact nset_body r w

theorem nullable_ext {a b : NullableSetting W} (h1 : a.setting = b.setting)
    (h2 : a.set = b.set) : a = b := by
  cases a
  cases b
  simp only at h1 h2
  rw [h1, h2]

/-- Two heaps that agree on everything except the residual stored value of
nullable slots whose explicit-set flag is down are indistinguishable to the
nullable resolution: the recursion only reads `setting` under `set = true`. -/
theorem ngetImplFuel_residual_congr (s₁ s₂ : Heap V W)
    (hlen : s₁.length = s₂.length)
    (hag : ∀ (j : Nat) (r₁ r₂ : NodeRec V W),
      s₁[j]? = some r₁ → s₂[j]? = some r₂ →
      r₁.slot = r₂.slot ∧ r₁.parents = r₂.parents ∧
      r₁.nslot.set = r₂.nslot.set ∧
      (r₁.nslot.set = true → r₁.nslot.setting = r₂.nslot.setting)) :
    ∀ fuel i, ngetImplFuel s₁ fuel i = ngetImplFuel s₂ fuel i
  | 0, _ => rfl
  | fuel + 1, i => by
    cases h₁ : s₁[i]? with
    | none =>
      have h₂ : s₂[i]? = none := by
        cases h₂ : s₂[i]? with
        | none => rfl
        | some r₂ =>
          have := get_some_lt s₂ i r₂ h₂
          have := get_none_ge s₁ i h₁
          omega
      simp only [ngetImplFuel, h₁, h₂]
    | some r₁ =>
      have h₂ : ∃ r₂, s₂[i]? = some r₂ := by
        cases h₂ : s₂[i]? with
        | none =>
          have := get_some_lt s₁ i r₁ h₁
          have := get_none_ge s₂ i h₂
          omega
        | some r₂ => exact ⟨r₂, rfl⟩
      obtain ⟨r₂, h₂⟩ := h₂
      obtain ⟨hsl, hps, hset, hst⟩ := hag i r₁ r₂ h₁ h₂
      cases hs : r₁.nslot.set with
      | true =>
        have hs₂ : r₂.nslot.set = true := hset.symm.trans hs
        have hn : r₁.nslot = r₂.nslot := nullable_ext (hst hs) hset
        simp only [ngetImplFuel, h₁, h₂, hs, hs₂, hn, if_true]
      | false =>
        have hs₂ : r₂.nslot.set = false := hset.symm.trans hs
        simp only [ngetImplFuel, h₁, h₂, hs, hs₂, Bool.false_eq_true, if_false]
        rw [hps]
        exact ngetLoop_congr
          (fun p => ngetImplFuel_residual_congr s₁ s₂ hlen hag fuel p) r₂.parents

theorem updateAt_updateAt (s : Heap V W) (i : Nat)
    (f g : NodeRec V W → NodeRec V W) (r : NodeRec V W)
    (h : s[i]? = some r) :
    updateAt (updateAt s i f) i g = s.set i (g (f r)) := by
  have h1 : updateAt s i f = s.set i (f r) := by
    unfold updateAt
    rw [h]
  rw [h1]
  unfold updateAt
  rw [get_set_self s i (f r) (get_some_lt s i r h)]
  exact set_set_self s i (f r) (g (f r))

/-! ## Claim theorems -/

/-- Claim C1, counterexample: on a node with 2 parents, `InsertParent(5, p)`
does not have the claimed defined outcome of rejecting the call and leaving
the parent list unchanged — the source contains no bounds check and no error
path, and the call falls outside the defined behavior of the code
(`begin() + 5` on a 2-element vector is undefined behavior), embedded as the
absence of any result. -/
theorem insertParent_oob_counterexample :
    insertParentAt 5 0 [1, 2] = none ∧
      ¬ insertParentAt 5 0 [1, 2] = some [1, 2] := by
  decide

/-- Claim C1, amended: `InsertParent(index, parent)` performs no bounds check
and signals no error.  For `index` within `[0, currentParentCount]` it
inserts `parent` at that position, shifting subsequent parents later; for
`index` strictly greater than the current parent count the call has no
defined behavior. -/
theorem insertParent_no_bounds_check :
    ∀ (parents : List Nat) (p index : Nat),
      (index ≤ parents.length →
        insertParentAt index p parents =
          some (parents.take index ++ p :: parents.drop index)) ∧
      (parents.length < index → insertParentAt index p parents = none) := by
  intro parents p index
  constructor
  · intro h
    unfold insertParentAt
    rw [if_pos h]
  · intro h
    unfold insertParentAt
    rw [if_neg (by omega)]

/-- Witness for `insertParent_no_bounds_check` at a node with 2 parents. -/
theorem insertParent_no_bounds_check_witness :
    insertParentAt 1 9 [4, 5] = some [4, 9, 5] ∧
      insertParentAt 5 9 [4, 5] = none := by
  constructor
  · have h := (insertParent_no_bounds_check [4, 5] 9 1).1 (by decide)
    simpa using h
  · exact (insertParent_no_bounds_check [4, 5] 9 5).2 (by decide)

/-- Claim C2: resolution is depth-first, left-to-right over the parent list.
A node's own explicit value wins outright; an unset node scans its parents
in insertion order, an earlier parent whose own chain produced a value makes
later siblings irrelevant (they are never consulted), and an earlier parent
whose chain produced nothing passes to the next sibling.  In particular,
with parents `a` (inserted first) and `b` (inserted second), `a` explicitly
set and the child unset, `Get()` on the child returns `a`'s value. -/
theorem resolution_first_parent_wins (V W : Type) :
    (∀ (s : Heap V W) (i : Nat) (r : NodeRec V W) (v : V) (fuel : Nat),
      s[i]? = some r → r.slot = some v →
      getImplFuel s (fuel + 1) i = some (some v)) ∧
    (∀ (s : Heap V W) (i : Nat) (r : NodeRec V W) (fuel : Nat),
      s[i]? = some r → r.slot = none →
      getImplFuel s (fuel + 1) i =
        getLoop (fun p => getImplFuel s fuel p) r.parents) ∧
    (∀ (s : Heap V W) (fuel p : Nat) (ps : List Nat) (v : V),
      getImplFuel s fuel p = some (some v) →
      getLoop (fun q => getImplFuel s fuel q) (p :: ps) = some (some v)) ∧
    (∀ (s : Heap V W) (fuel p : Nat) (ps : List Nat),
      getImplFuel s fuel p = some none →
      getLoop (fun q => getImplFuel s fuel q) (p :: ps) =
        getLoop (fun q => getImplFuel s fuel q) ps) ∧
    (∀ (s : Heap V W) (n a b : Nat) (rn ra : NodeRec V W) (va : V)
        (fuel : Nat) (d : V),
      s[n]? = some rn → rn.slot = none → rn.parents = [a, b] →
      s[a]? = some ra → ra.slot = some va →
      getAt (fuel + 2) d s n = some va) := by
  refine ⟨?_, ?_, ?_, ?_, ?_⟩
  · intro s i r v fuel h hr
    simp [getImplFuel, h, hr]
  · intro s i r fuel h hr
    simp [getImplFuel, h, hr]
  · intro s fuel p ps v h
    simp [getLoop, h]
  · intro s fuel p ps h
    simp [getLoop, h]
  · intro s n a b rn ra va fuel d hn hrn hps ha hra
    have e1 : getImplFuel s (fuel + 1) a = some (some va) := by
      simp [getImplFuel, ha, hra]
    show getAt (fuel + 1 + 1) d s n = some va
    have e2 : getImplFuel s (fuel + 1 + 1) n =
        getLoop (fun p => getImplFuel s (fuel + 1) p) rn.parents := by
      simp only [getImplFuel, hn, hrn]
    unfold getAt
    rw [e2, hps]
    simp only [getLoop, e1]
    rfl

/-- Witness for `resolution_first_parent_wins`: child node 2 is unset with
parents `[0, 1]`, node 0 holds 10, node 1 holds 20; `Get()` returns 10. -/
theorem resolution_first_parent_wins_witness :
    getAt 2 0 [(⟨some 10, ⟨none, false⟩, []⟩ : NodeRec Nat Nat),
      ⟨some 20, ⟨none, false⟩, []⟩, ⟨none, ⟨none, false⟩, [0, 1]⟩] 2 =
      some 10 :=
  (resolution_first_parent_wins Nat Nat).2.2.2.2
    [⟨some 10, ⟨none, false⟩, []⟩, ⟨some 20, ⟨none, false⟩, []⟩,
      ⟨none, ⟨none, false⟩, [0, 1]⟩]
    2 0 1 ⟨none, ⟨none, false⟩, [0, 1]⟩ ⟨some 10, ⟨none, false⟩, []⟩
    10 0 0 rfl rfl rfl rfl rfl

/-- Claim C3: immediately after `Set(v)` on node `i`, `Has()` is true and
`Get()` returns `v` whatever the parents hold, in both the plain
(`GETSET_SETTING`) and the nullable (`GETSET_NULLABLE_SETTING`) variant. -/
theorem set_then_has_and_get (V W : Type) [DecidableEq W] :
    (∀ (s : Heap V W) (i : Nat) (r : NodeRec V W) (v : V),
      s[i]? = some r →
      hasAt (setAt s i v) i = true ∧
      ∀ (fuel : Nat) (d : V), getAt (fuel + 1) d (setAt s i v) i = some v) ∧
    (∀ (s : Heap V W) (i : Nat) (r : NodeRec V W) (w : Option W),
      s[i]? = some r →
      nhasAt (nsetAt s i w) i = true ∧
      ∀ (fuel : Nat) (d : Option W),
        ngetAt (fuel + 1) d (nsetAt s i w) i = some w) := by
  constructor
  · intro s i r v h
    have h1 : (setAt s i v)[i]? = some { r with slot := some v } :=
      updateAt_self s i _ r h
    constructor
    · simp [hasAt, h1]
    · intro fuel d
      simp [getAt, getImplFuel, h1]
  · intro s i r w h
    have h1 : (nsetAt s i w)[i]? = some { r with nslot := ⟨w, true⟩ } := by
      rw [nsetAt_eq]
      exact updateAt_self s i _ r h
    constructor
    · simp [nhasAt, h1]
    · intro fuel d
      simp [ngetAt, ngetImplFuel, h1]

/-- Witness for `set_then_has_and_get` on a one-node heap. -/
theorem set_then_has_and_get_witness :
    hasAt (setAt [(⟨none, ⟨none, false⟩, []⟩ : NodeRec Nat Nat)] 0 5) 0
        = true ∧
      getAt 1 0 (setAt [(⟨none, ⟨none, false⟩, []⟩ : NodeRec Nat Nat)] 0 5) 0
        = some 5 ∧
      nhasAt (nsetAt [(⟨none, ⟨none, false⟩, []⟩ : NodeRec Nat Nat)] 0
        (some 7)) 0 = true ∧
      ngetAt 1 none (nsetAt [(⟨none, ⟨none, false⟩, []⟩ : NodeRec Nat Nat)] 0
        (some 7)) 0 = some (some 7) :=
  ⟨((set_then_has_and_get Nat Nat).1 [⟨none, ⟨none, false⟩, []⟩] 0
      ⟨none, ⟨none, false⟩, []⟩ 5 (by decide)).1,
    ((set_then_has_and_get Nat Nat).1 [⟨none, ⟨none, false⟩, []⟩] 0
      ⟨none, ⟨none, false⟩, []⟩ 5 (by decide)).2 0 0,
    ((set_then_has_and_get Nat Nat).2 [⟨none, ⟨none, false⟩, []⟩] 0
      ⟨none, ⟨none, false⟩, []⟩ (some 7) (by decide)).1,
    ((set_then_has_and_get Nat Nat).2 [⟨none, ⟨none, false⟩, []⟩] 0
      ⟨none, ⟨none, false⟩, []⟩ (some 7) (by decide)).2 0 none⟩

/-- Claim C5: a freshly constructed node has `Has()` false (both variants)
and `Get()` equal to the declared default; and in general resolution never
fails — whenever the recursive search finds nothing, the getter returns the
default rather than an error. -/
theorem fresh_node_defaults (V W : Type) :
    (∀ (s : Heap V W) (i : Nat), s[i]? = some freshNode →
      hasAt s i = false ∧ nhasAt s i = false ∧
      (∀ (fuel : Nat) (d : V), getAt (fuel + 1) d s i = some d) ∧
      (∀ (fuel : Nat) (d : Option W), ngetAt (fuel + 1) d s i = some d)) ∧
    (∀ (s : Heap V W) (fuel : Nat) (d : V) (i : Nat),
      getImplFuel s fuel i = some none → getAt fuel d s i = some d) := by
  constructor
  · intro s i h
    refine ⟨?_, ?_, ?_, ?_⟩
    · simp [hasAt, h, freshNode]
    · simp [nhasAt, h, freshNode]
    · intro fuel d
      simp [getAt, getImplFuel, h, freshNode, getLoop]
    · intro fuel d
      simp [ngetAt, ngetImplFuel, h, freshNode, ngetLoop]
  · intro s fuel d i h
    simp [getAt, h]

/-- Witness for `fresh_node_defaults` on a one-node heap. -/
theorem fresh_node_defaults_witness :
    hasAt [(freshNode : NodeRec Nat Nat)] 0 = false ∧
      getAt 1 42 [(freshNode : NodeRec Nat Nat)] 0 = some 42 ∧
      getAt 1 42 [(freshNode : NodeRec Nat Nat)] 0 = some 42 :=
  ⟨((fresh_node_defaults Nat Nat).1 [freshNode] 0 (by decide)).1,
    ((fresh_node_defaults Nat Nat).1 [freshNode] 0 (by decide)).2.2.1 0 42,
    (fresh_node_defaults Nat Nat).2 [freshNode] 1 42 0 (by decide)⟩

/-- Claim C6: in the nullable variant, a slot explicitly set to the null
value reports `Has() = true` and `Get()` returns null rather than the
configured default, while any slot whose explicit-set flag is down reports
`Has() = false` — the flag alone discriminates "explicitly set" from
"inherit". -/
theorem nullable_set_null_distinguished (V W : Type) [DecidableEq W] :
    (∀ (s : Heap V W) (i : Nat) (r : NodeRec V W), s[i]? = some r →
      nhasAt (nsetAt s i none) i = true ∧
      ∀ (fuel : Nat) (d : Option W),
        ngetAt (fuel + 1) d (nsetAt s i none) i = some none) ∧
    (∀ (s : Heap V W) (i : Nat) (r : NodeRec V W), s[i]? = some r →
      r.nslot.set = false → nhasAt s i = false) := by
  constructor
  · intro s i r h
    have h1 : (nsetAt s i none)[i]? = some { r with nslot := ⟨none, true⟩ } := by
      rw [nsetAt_eq]
      exact updateAt_self s i _ r h
    exact ⟨by simp [nhasAt, h1],
      fun fuel d => by simp [ngetAt, ngetImplFuel, h1]⟩
  · intro s i r h hf
    simp [nhasAt, h, hf]

/-- Witness for `nullable_set_null_distinguished`: set-to-null on a heap
whose node would otherwise resolve to the default `some 9`. -/
theorem nullable_set_null_distinguished_witness :
    nhasAt (nsetAt [(⟨none, ⟨none, false⟩, []⟩ : NodeRec Nat Nat)] 0 none) 0
        = true ∧
      ngetAt 1 (some 9)
        (nsetAt [(⟨none, ⟨none, false⟩, []⟩ : NodeRec Nat Nat)] 0 none) 0
        = some none ∧
      nhasAt [(⟨none, ⟨none, false⟩, []⟩ : NodeRec Nat Nat)] 0 = false :=
  ⟨((nullable_set_null_distinguished Nat Nat).1 [⟨none, ⟨none, false⟩, []⟩] 0
      ⟨none, ⟨none, false⟩, []⟩ (by decide)).1,
    ((nullable_set_null_distinguished Nat Nat).1 [⟨none, ⟨none, false⟩, []⟩] 0
      ⟨none, ⟨none, false⟩, []⟩ (by decide)).2 0 (some 9),
    (nullable_set_null_distinguished Nat Nat).2 [⟨none, ⟨none, false⟩, []⟩] 0
      ⟨none, ⟨none, false⟩, []⟩ (by decide) rfl⟩

/-- The two heaps obtained by parking different residual values `a`, `b` in
node `i`'s nullable slot with the explicit-set flag down resolve
identically everywhere: instance of `ngetImplFuel_residual_congr`. -/
theorem nresidual_states_congr (s : Heap V W) (i : Nat) (a b : Option W)
    (fuel j : Nat) :
    ngetImplFuel (nresidualAt s i a) fuel j =
      ngetImplFuel (nresidualAt s i b) fuel j := by
  cases h : s[i]? with
  | none =>
    unfold nresidualAt
    rw [updateAt_oob s i _ h, updateAt_oob s i _ h]
  | some r =>
    apply ngetImplFuel_residual_congr
    · unfold nresidualAt
      rw [updateAt_len, updateAt_len]
    · intro j' r₁ r₂ e₁ e₂
      by_cases hj : j' = i
      · subst hj
        have g1 : (nresidualAt s j' a)[j']? = some { r with nslot := ⟨a, false⟩ } :=
          updateAt_self s j' _ r h
        have g2 : (nresidualAt s j' b)[j']? = some { r with nslot := ⟨b, false⟩ } :=
          updateAt_self s j' _ r h
        rw [g1] at e₁
        rw [g2] at e₂
        injection e₁ with e₁
        injection e₂ with e₂
        subst e₁
        subst e₂
        exact ⟨rfl, rfl, rfl, fun hh => absurd hh (by simp)⟩
      · have g1 : (nresidualAt s i a)[j']? = s[j']? :=
          updateAt_other s i _ j' hj
        have g2 : (nresidualAt s i b)[j']? = s[j']? :=
          updateAt_other s i _ j' hj
        rw [g1] at e₁
        rw [g2] at e₂
        rw [e₁] at e₂
        injection e₂ with e₂
        subst e₂
        exact ⟨rfl, rfl, rfl, fun _ => rfl⟩

/-- Claim C4: after `Set(v)` then `Clear()`, `Has()` is false and the node
behaves observably like one that never set the property: in the plain
variant, clear-after-set yields literally the same heap as clear alone, and
clear on a never-set slot is the identity, so `Get()` re-resolves through
ancestors or to the default; in the nullable variant the heaps differ only
by the unobservable residual stored value, so every `Get()` on every node
agrees with the never-set heap's. -/
theorem clear_after_set_restores_inheritance (V W : Type) [DecidableEq W] :
    (∀ (s : Heap V W) (i : Nat) (v : V),
      hasAt (clearAt (setAt s i v) i) i = false) ∧
    (∀ (s : Heap V W) (i : Nat) (v : V),
      clearAt (setAt s i v) i = clearAt s i) ∧
    (∀ (s : Heap V W) (i : Nat) (r : NodeRec V W),
      s[i]? = some r → r.slot = none → clearAt s i = s) ∧
    (∀ (s : Heap V W) (i : Nat) (w : Option W),
      nhasAt (nclearAt (nsetAt s i w) i) i = false) ∧
    (∀ (s : Heap V W) (i : Nat) (w : Option W) (fuel : Nat) (d : Option W)
        (j : Nat),
      ngetAt fuel d (nclearAt (nsetAt s i w) i) j =
        ngetAt fuel d (nclearAt s i) j) := by
  refine ⟨?_, ?_, ?_, ?_, ?_⟩
  · intro s i v
    cases h : s[i]? with
    | none =>
      unfold setAt
      rw [updateAt_oob s i _ h]
      unfold clearAt
      rw [updateAt_oob s i _ h]
      simp [hasAt, h]
    | some r =>
      have h1 : (setAt s i v)[i]? = some { r with slot := some v } :=
        updateAt_self s i _ r h
      have h2 : (clearAt (setAt s i v) i)[i]? =
          some { r with slot := (none : Option V) } :=
        updateAt_self (setAt s i v) i _ { r with slot := some v } h1
      simp [hasAt, h2]
  · intro s i v
    cases h : s[i]? with
    | none =>
      unfold setAt
      rw [updateAt_oob s i _ h]
    | some r =>
      have e1 : clearAt (setAt s i v) i = s.set i { r with slot := none } := by
        unfold clearAt setAt
        rw [updateAt_updateAt s i _ _ r h]
      have e2 : clearAt s i = s.set i { r with slot := none } := by
        unfold clearAt updateAt
        rw [h]
      rw [e1, e2]
  · intro s i r h hr
    obtain ⟨sl, ns, ps⟩ := r
    obtain rfl : sl = none := hr
    unfold clearAt updateAt
    rw [h]
    exact get_set_same s i _ h
  · intro s i w
    cases h : s[i]? with
    | none =>
      rw [nsetAt_eq, updateAt_oob s i _ h]
      unfold nclearAt
      rw [updateAt_oob s i _ h]
      simp [nhasAt, h]
    | some r =>
      have h1 : (nsetAt s i w)[i]? = some { r with nslot := ⟨w, true⟩ } := by
        rw [nsetAt_eq]
        exact updateAt_self s i _ r h
      have h2 : (nclearAt (nsetAt s i w) i)[i]? =
          some { r with nslot := (⟨w, false⟩ : NullableSetting W) } :=
        updateAt_self (nsetAt s i w) i _ { r with nslot := ⟨w, true⟩ } h1
      simp [nhasAt, h2]
  · intro s i w fuel d j
    cases h : s[i]? with
    | none =>
      rw [nsetAt_eq, updateAt_oob s i _ h]
    | some r =>
      have e2 : nclearAt (nsetAt s i w) i = nresidualAt s i w := by
        rw [nsetAt_eq]
        unfold nclearAt
        rw [updateAt_updateAt s i _ _ r h]
        unfold nresidualAt updateAt
        rw [h]
      have e3 : nclearAt s i = nresidualAt s i r.nslot.setting := by
        unfold nclearAt nresidualAt updateAt
        rw [h]
      unfold ngetAt
      rw [e2, e3, nresidual_states_congr s i w r.nslot.setting fuel j]

/-- Witness for `clear_after_set_restores_inheritance`: its only
hypothesis-bearing component, clear on a never-set slot, at a concrete
one-node heap. -/
theorem clear_after_set_restores_inheritance_witness :
    clearAt [(⟨none, ⟨none, false⟩, []⟩ : NodeRec Nat Nat)] 0 =
      [(⟨none, ⟨none, false⟩, []⟩ : NodeRec Nat Nat)] :=
  (clear_after_set_restores_inheritance Nat Nat).2.2.1
    [⟨none, ⟨none, false⟩, []⟩] 0 ⟨none, ⟨none, false⟩, []⟩ (by decide) rfl

/-- Claim C7: `CreateChild()` returns a node whose parent list is exactly
`[creator]`, whose plain and nullable slots are both unset at that point,
and the `_FinalizeInheritance` hook is applied exactly once, to the heap in
which the parent link is already established. -/
theorem createChild_links_single_parent (V W : Type) :
    ∀ (s : Heap V W) (i : Nat),
      (createChild s i).2 = s.length ∧
      (createChild s i).1[s.length]? =
        some (⟨none, ⟨none, false⟩, [i]⟩ : NodeRec V W) ∧
      ∀ hook, createChildHook hook s i =
        (hook (s ++ [(⟨none, ⟨none, false⟩, [i]⟩ : NodeRec V W)]) s.length,
          s.length) := by
  intro s i
  have hkey : updateAt (s ++ [freshNode]) s.length
      (fun r => { r with parents := insertParentEnd i r.parents }) =
      s ++ [(⟨none, ⟨none, false⟩, [i]⟩ : NodeRec V W)] := by
    unfold updateAt
    rw [get_concat_len s freshNode]
    exact set_concat_len s freshNode _
  refine ⟨rfl, ?_, ?_⟩
  · show (updateAt (s ++ [freshNode]) s.length
      (fun r => { r with parents := insertParentEnd i r.parents }))[s.length]? = _
    rw [hkey]
    exact get_concat_len s _
  · intro hook
    show (hook (updateAt (s ++ [freshNode]) s.length
      (fun r => { r with parents := insertParentEnd i r.parents })) s.length,
        s.length) = _
    rw [hkey]

/-- Claim C10: `CreateChild()` is read-only on the creator (and on every
pre-existing node): every id already in the heap resolves to the very same
record afterwards — the creator gains no parent and keeps its slots. -/
theorem createChild_creator_unchanged (V W : Type) :
    ∀ (s : Heap V W) (i j : Nat), j < s.length →
      (createChild s i).1[j]? = s[j]? := by
  intro s i j hj
  show (updateAt (s ++ [freshNode]) s.length
    (fun r => { r with parents := insertParentEnd i r.parents }))[j]? = s[j]?
  rw [updateAt_other _ s.length _ j (by omega)]
  exact get_append_left s [freshNode] j hj

/-- Witness for `createChild_creator_unchanged` on a one-node heap. -/
theorem createChild_creator_unchanged_witness :
    (createChild [(⟨some 1, ⟨none, false⟩, []⟩ : NodeRec Nat Nat)] 0).1[0]? =
      [(⟨some 1, ⟨none, false⟩, []⟩ : NodeRec Nat Nat)][0]? :=
  createChild_creator_unchanged Nat Nat
    [⟨some 1, ⟨none, false⟩, []⟩] 0 0 (by decide)

/-- If every parent in `ps` has a fuel bound past which its resolution
returns, the whole `for` loop has one too (the maximum of the bounds). -/
theorem getLoop_fuel_bound (s : Heap V W) :
    ∀ ps : List Nat,
      (∀ p ∈ ps, ∃ fp, ∀ f, fp ≤ f → (getImplFuel s f p).isSome = true) →
      ∃ F, ∀ f, F ≤ f →
        (getLoop (fun p => getImplFuel s f p) ps).isSome = true
  | [], _ => ⟨0, fun f _ => by simp [getLoop]⟩
  | p :: ps, h => by
    obtain ⟨fp, hfp⟩ := h p (List.mem_cons_self p ps)
    obtain ⟨F, hF⟩ := getLoop_fuel_bound s ps
      (fun q hq => h q (List.mem_cons_of_mem p hq))
    refine ⟨max fp F, fun f hf => ?_⟩
    have h1 : (getImplFuel s f p).isSome = true :=
      hfp f (le_trans (le_max_left _ _) hf)
    obtain ⟨val, hval⟩ := Option.isSome_iff_exists.mp h1
    cases val with
    | some v => simp [getLoop, hval]
    | none =>
      simp only [getLoop, hval]
      exact hF f (le_trans (le_max_right _ _) hf)

/-- Claim C8: on a heap whose parent graph is acyclic (the parent edge
relation is well-founded), resolution terminates — for every node there is
a recursion-depth bound past which `_get_name_Impl` returns; unbounded
recursion can arise only when the caller-maintained acyclicity precondition
is violated. -/
theorem acyclic_resolution_terminates (V W : Type) (s : Heap V W)
    (hwf : WellFounded (fun j i => parentEdge s j i)) (i : Nat) :
    ∃ fuel, ∀ f, fuel ≤ f → (getImplFuel s f i).isSome = true := by
  refine @WellFounded.induction Nat (fun j i => parentEdge s j i) hwf
    (fun i => ∃ fuel, ∀ f, fuel ≤ f → (getImplFuel s f i).isSome = true) i ?_
  intro x ih
  cases hx : s[x]? with
  | none =>
    refine ⟨1, fun f hf => ?_⟩
    obtain ⟨f', rfl⟩ : ∃ f', f = f' + 1 := ⟨f - 1, by omega⟩
    simp [getImplFuel, hx]
  | some r =>
    cases hr : r.slot with
    | some v =>
      refine ⟨1, fun f hf => ?_⟩
      obtain ⟨f', rfl⟩ : ∃ f', f = f' + 1 := ⟨f - 1, by omega⟩
      simp [getImplFuel, hx, hr]
    | none =>
      obtain ⟨F, hF⟩ := getLoop_fuel_bound s r.parents
        (fun p hp => ih p ⟨r, hx, hp⟩)
      refine ⟨F + 1, fun f hf => ?_⟩
      obtain ⟨f', rfl⟩ : ∃ f', f = f' + 1 := ⟨f - 1, by omega⟩
      simp only [getImplFuel, hx, hr]
      exact hF f' (by omega)

/-- Witness for `acyclic_resolution_terminates`: the empty heap has no
parent edges at all, so its edge relation is well-founded. -/
theorem acyclic_resolution_terminates_witness :
    ∃ fuel, ∀ f, fuel ≤ f →
      (getImplFuel ([] : Heap Nat Nat) f 0).isSome = true :=
  acyclic_resolution_terminates Nat Nat []
    ⟨fun a => Acc.intro a (fun b hb => by
      obtain ⟨r, hr, -⟩ := hb
      simp at hr)⟩ 0

/-- Claim C9: the nullable `Clear()` only flips the explicit-set flag and
leaves the stored value in place, `Has()` is then false, and the residual
value is unobservable through the public contract: `Get()` on any node of
the cleared heap coincides with `Get()` on the heap whose slot holds any
other residual value with the flag down. -/
theorem nullable_clear_residual_unobservable (V W : Type) :
    (∀ (s : Heap V W) (i : Nat) (r : NodeRec V W), s[i]? = some r →
      (nclearAt s i)[i]? =
        some { r with nslot := ⟨r.nslot.setting, false⟩ } ∧
      nhasAt (nclearAt s i) i = false) ∧
    (∀ (s : Heap V W) (i : Nat) (w : Option W) (fuel : Nat) (d : Option W)
        (j : Nat),
      ngetAt fuel d (nclearAt s i) j = ngetAt fuel d (nresidualAt s i w) j) := by
  constructor
  · intro s i r h
    have h1 : (nclearAt s i)[i]? =
        some { r with nslot := ⟨r.nslot.setting, false⟩ } :=
      updateAt_self s i _ r h
    exact ⟨h1, by simp [nhasAt, h1]⟩
  · intro s i w fuel d j
    cases h : s[i]? with
    | none =>
      unfold nclearAt nresidualAt
      rw [updateAt_oob s i _ h, updateAt_oob s i _ h]
    | some r =>
      have e3 : nclearAt s i = nresidualAt s i r.nslot.setting := by
        unfold nclearAt nresidualAt updateAt
        rw [h]
      unfold ngetAt
      rw [e3, nresidual_states_congr s i r.nslot.setting w fuel j]

/-- Witness for `nullable_clear_residual_unobservable`: clearing a slot
explicitly set to 3 leaves the 3 parked in the slot with the flag down. -/
theorem nullable_clear_residual_unobservable_witness :
    (nclearAt [(⟨none, ⟨some 3, true⟩, []⟩ : NodeRec Nat Nat)] 0)[0]? =
        some ⟨none, ⟨some 3, false⟩, []⟩ ∧
      nhasAt (nclearAt [(⟨none, ⟨some 3, true⟩, []⟩ : NodeRec Nat Nat)] 0) 0
        = false :=
  (nullable_clear_residual_unobservable Nat Nat).1
    [⟨none, ⟨some 3, true⟩, []⟩] 0 ⟨none, ⟨some 3, true⟩, []⟩ (by decide)
